import Mathlib

/-!
Verification of the network-robustness simulation core of `ProjU3.py`:
the functions `simulate_attack` (progressive node removal, random or
degree-targeted) and `edge_overlap_removal` (progressive edge removal
ordered by topological overlap), together with the largest-connected-
component tracking they perform.

The embedding is a direct shallow translation of the Python source:
* a graph is a node list plus a weighted edge list, both carrying the
  deterministic iteration order that `networkx` exposes (node identifiers
  are modelled as naturals, with `<` standing for the total order Python
  uses to canonicalize edge keys);
* `nx.connected_components` is modelled by saturating neighbor expansion
  (`reachN`), iterated `|V|` times, which computes exact reachability;
* the Python `for` loops become structural recursions threading the
  working graph, and the `random.sample` call becomes an injected
  sampling oracle so that statements can quantify over its behavior.
-/

namespace ProjU3

/-- A graph as the simulation sees it: nodes in iteration order, and
undirected weighted edges `((u, v), w)` in iteration order, each stored
once (as `networkx` does). -/
structure Graph where
  nodes : List ℕ
  edges : List ((ℕ × ℕ) × ℚ)
deriving DecidableEq, Repr

/-- Adjacency test: some stored edge joins `u` and `v` (in either
orientation), as `G.has_edge(u, v)` does. -/
def adjB (g : Graph) (u v : ℕ) : Bool :=
  g.edges.any (fun e => (e.1.1 == u && e.1.2 == v) || (e.1.1 == v && e.1.2 == u))

/-- The node set of the graph. -/
def nodeSet (g : Graph) : Finset ℕ :=
  g.nodes.toFinset

/-- `set(G.neighbors(u))`: the nodes adjacent to `u`. -/
def neighborSet (g : Graph) (u : ℕ) : Finset ℕ :=
  (nodeSet g).filter (fun v => adjB g u v = true)

/-- `G.degree(u)`: each incident edge counts once per endpoint slot, so a
self-loop counts twice, exactly as in `networkx`. -/
def degree (g : Graph) (u : ℕ) : ℕ :=
  (g.edges.filter (fun e => e.1.1 == u)).length +
    (g.edges.filter (fun e => e.1.2 == u)).length

/-- One round of neighbor expansion: add every node adjacent to the
current set. -/
def stepR (g : Graph) (s : Finset ℕ) : Finset ℕ :=
  s ∪ (nodeSet g).filter (fun v => ∃ u ∈ s, adjB g u v = true)

/-- `n` rounds of neighbor expansion. -/
def reachN (g : Graph) : ℕ → Finset ℕ → Finset ℕ
  | 0, s => s
  | n + 1, s => reachN g n (stepR g s)

/-- The connected component of `u`: `|V|` expansion rounds saturate, so
this is the exact reachable set. -/
def component (g : Graph) (u : ℕ) : Finset ℕ :=
  reachN g g.nodes.length {u}

/-- `len(max(nx.connected_components(G), key=len))`, computed as the
maximum over all nodes of the size of their component (`0` on the empty
graph). -/
def lcc (g : Graph) : ℕ :=
  (g.nodes.map (fun u => (component g u).card)).foldr max 0

/-- `nx.is_connected(G)`: every node reachable from the first one.
(`networkx` raises on the null graph; the loops below only query
nonempty graphs, and we return `false` there.) -/
def isConnected (g : Graph) : Bool :=
  match g.nodes with
  | [] => false
  | u :: _ => g.nodes.all (fun v => decide (v ∈ component g u))

/-- `G.remove_node(u)`: drop the node and every incident edge. -/
def removeNode (g : Graph) (u : ℕ) : Graph :=
  ⟨g.nodes.filter (fun v => v != u),
   g.edges.filter (fun e => e.1.1 != u && e.1.2 != u)⟩

/-- `G.remove_edge(a, b)`: drop the stored edge joining `a` and `b`. -/
def removeEdge (g : Graph) (a b : ℕ) : Graph :=
  ⟨g.nodes,
   g.edges.filter (fun e => !(e.1.1 == a && e.1.2 == b) && !(e.1.1 == b && e.1.2 == a))⟩

/-- The largest-component size as the node-removal loop computes it:
`0 if len(G) == 0 else len(max(nx.connected_components(G), key=len))`. -/
def lccNodeBranch (g : Graph) : ℕ :=
  if g.nodes = [] then 0 else lcc g

/-- The largest-component size as the edge-removal loop computes it:
`len(G.nodes()) if nx.is_connected(G) else len(max(...))`. -/
def lccEdgeBranch (g : Graph) : ℕ :=
  if isConnected g then g.nodes.length else lcc g

/-- Python `int(q)`: truncation toward zero. -/
def pyInt (q : ℚ) : ℤ :=
  if 0 ≤ q then ⌊q⌋ else -⌊-q⌋

/-- `num_remove = int(remove_fraction * N)` for the node runner. -/
def numRemoveNode (g : Graph) (f : ℚ) : ℕ :=
  (pyInt (f * (g.nodes.length : ℚ))).toNat

/-- `G.degree`: the `(node, degree)` pairs in node iteration order. -/
def degreePairs (g : Graph) : List (ℕ × ℕ) :=
  g.nodes.map (fun n => (n, degree g n))

/-- `sorted(G.degree, key=lambda x: x[1], reverse=True)`: Python sort is
stable, and stable descending sort is insertion sort with the reflexive
comparison `a.2 ≥ b.2`. -/
def targetedOrder (g : Graph) : List (ℕ × ℕ) :=
  (degreePairs g).insertionSort (fun a b => b.2 ≤ a.2)

/-- The node-removal loop of `simulate_attack` (source lines 383-391):
remove the next node — `networkx` raises `NetworkXError` if it is absent
— then record `((i+1)/N, lcc/N)`. `N` is the original node count, fixed
for the whole run. -/
def nodeLoop (N : ℕ) : Graph → ℕ → List ℕ → Except String (List ℚ × List ℚ)
  | _, _, [] => .ok ([], [])
  | g, i, u :: rest =>
    if u ∈ g.nodes then
      match nodeLoop N (removeNode g u) (i + 1) rest with
      | .ok (xs, ys) =>
        .ok ((((i : ℚ) + 1) / (N : ℚ)) :: xs,
             ((lccNodeBranch (removeNode g u) : ℚ) / (N : ℚ)) :: ys)
      | .error e => .error e
    else .error "NetworkXError"

/-- The removal order `simulate_attack` computes: `random.sample` for the
random strategy (modelled by the injected oracle `sample`), the stable
degree-descending sort truncated to `num_remove` for the targeted one. -/
def nodeOrderOf (sample : List ℕ → ℕ → List ℕ) (g : Graph) (strategy : String)
    (f : ℚ) : List ℕ :=
  if strategy = "random" then sample g.nodes (numRemoveNode g f)
  else if strategy = "targeted" then
    ((targetedOrder g).take (numRemoveNode g f)).map Prod.fst
  else []

/-- `simulate_attack(graph, strategy, remove_fraction)` (source lines
362-392). The working graph is `graph.copy()`; an unknown strategy
raises `ValueError`. -/
def simulate_attack (sample : List ℕ → ℕ → List ℕ) (graph : Graph)
    (strategy : String) (remove_fraction : ℚ) : Except String (List ℚ × List ℚ) :=
  if strategy = "random" ∨ strategy = "targeted" then
    nodeLoop graph.nodes.length graph 0 (nodeOrderOf sample graph strategy remove_fraction)
  else .error "Invalid strategy"

/-- The overlap score of source lines 425-429:
`len(common) / len(union) if union else 0`. -/
def overlapScore (g : Graph) (u v : ℕ) : ℚ :=
  let common := neighborSet g u ∩ neighborSet g v
  let uni := neighborSet g u ∪ neighborSet g v
  if uni = ∅ then 0 else (common.card : ℚ) / (uni.card : ℚ)

/-- `edge = (u, v) if u < v else (v, u)`. -/
def canonEdge (u v : ℕ) : ℕ × ℕ :=
  if u < v then (u, v) else (v, u)

/-- The `overlap_scores` dict in edge iteration order (each undirected
edge is stored once, so keys do not collide). -/
def overlapScores (g : Graph) : List ((ℕ × ℕ) × ℚ) :=
  g.edges.map (fun e => (canonEdge e.1.1 e.1.2, overlapScore g e.1.1 e.1.2))

/-- `sorted(overlap_scores.items(), key=lambda x: x[1], reverse=not
ascending)`: a stable sort by score. -/
def sortedEdges (g : Graph) (ascending : Bool) : List ((ℕ × ℕ) × ℚ) :=
  if ascending then (overlapScores g).insertionSort (fun a b => a.2 ≤ b.2)
  else (overlapScores g).insertionSort (fun a b => b.2 ≤ a.2)

/-- The edge sequence the removal loop walks: `sorted_edges[i][0]` for
`i < num_remove`, with the `i >= len(sorted_edges)` break folded into
`take`. -/
def edgePlanOf (g : Graph) (f : ℚ) (ascending : Bool) : List (ℕ × ℕ) :=
  ((sortedEdges g ascending).map Prod.fst).take (pyInt (f * (g.edges.length : ℚ))).toNat

/-- The edge-removal loop of `edge_overlap_removal` (source lines
437-448): skip the edge if it is already gone (`if G.has_edge(*edge)`),
then record `((i+1)/E, lcc/N)` with the `is_connected` shortcut. -/
def edgeLoop (N E : ℕ) : Graph → ℕ → List (ℕ × ℕ) → List ℚ × List ℚ
  | _, _, [] => ([], [])
  | g, i, e :: rest =>
    let g1 := if adjB g e.1 e.2 then removeEdge g e.1 e.2 else g
    let res := edgeLoop N E g1 (i + 1) rest
    ((((i : ℚ) + 1) / (E : ℚ)) :: res.1,
     ((lccEdgeBranch g1 : ℚ) / (N : ℚ)) :: res.2)

/-- `edge_overlap_removal(graph, remove_fraction, ascending)` (source
lines 411-450). -/
def edge_overlap_removal (graph : Graph) (remove_fraction : ℚ)
    (ascending : Bool) : List ℚ × List ℚ :=
  edgeLoop graph.nodes.length graph.edges.length graph 0
    (edgePlanOf graph remove_fraction ascending)

/-- The successive snapshots of the working graph along a node-removal
plan (defined for every plan; the loop only reaches them when each
target is present). -/
def nodeSnaps : Graph → List ℕ → List Graph
  | _, [] => []
  | g, u :: rest => removeNode g u :: nodeSnaps (removeNode g u) rest

/-- The successive snapshots of the working graph along an edge-removal
plan, with the defensive `has_edge` skip. -/
def edgeSnaps : Graph → List (ℕ × ℕ) → List Graph
  | _, [] => []
  | g, e :: rest =>
    let g1 := if adjB g e.1 e.2 then removeEdge g e.1 e.2 else g
    g1 :: edgeSnaps g1 rest

/-- Every step of a node-removal plan finds its target present. -/
def nodeOk : Graph → List ℕ → Bool
  | _, [] => true
  | g, u :: rest => decide (u ∈ g.nodes) && nodeOk (removeNode g u) rest

/-- `g1` is a subgraph of `g2`: fewer nodes, fewer adjacencies. Both
removal operations only ever shrink the graph in this sense. -/
def SubG (g1 g2 : Graph) : Prop :=
  (∀ v ∈ g1.nodes, v ∈ g2.nodes) ∧ ∀ u v, adjB g1 u v = true → adjB g2 u v = true

theorem subG_refl (g : Graph) : SubG g g :=
  ⟨fun _ h => h, fun _ _ h => h⟩

theorem nodeSet_mono {g1 g2 : Graph} (h : SubG g1 g2) : nodeSet g1 ⊆ nodeSet g2 := by
  intro v hv
  simp only [nodeSet, List.mem_toFinset] at hv ⊢
  exact h.1 v hv

theorem stepR_mono {g1 g2 : Graph} (h : SubG g1 g2) {s t : Finset ℕ} (hst : s ⊆ t) :
    stepR g1 s ⊆ stepR g2 t := by
  intro v hv
  simp only [stepR, Finset.mem_union, Finset.mem_filter] at hv ⊢
  rcases hv with hv | ⟨hv, u, hu, hadj⟩
  · exact Or.inl (hst hv)
  · exact Or.inr ⟨nodeSet_mono h hv, u, hst hu, h.2 u v hadj⟩

theorem reachN_mono {g1 g2 : Graph} (h : SubG g1 g2) :
    ∀ (n : ℕ) {s t : Finset ℕ}, s ⊆ t → reachN g1 n s ⊆ reachN g2 n t := by
  intro n
  induction n with
  | zero => intro s t hst; simpa [reachN] using hst
  | succ n ih =>
    intro s t hst
    simpa [reachN] using ih (stepR_mono h hst)

theorem subset_stepR (g : Graph) (s : Finset ℕ) : s ⊆ stepR g s :=
  Finset.subset_union_left

theorem reachN_mono_iter {g : Graph} {s : Finset ℕ} :
    ∀ {n m : ℕ}, n ≤ m → reachN g n s ⊆ reachN g m s := by
  intro n m hnm
  induction m, hnm using Nat.le_induction with
  | base => exact fun v hv => hv
  | succ m _ ih =>
    have h1 : reachN g m s ⊆ reachN g (m + 1) s :=
      reachN_mono (subG_refl g) m (subset_stepR g s)
    exact fun v hv => h1 (ih hv)

theorem nodes_length_mono {g1 g2 : Graph} (h : SubG g1 g2) (hn : g1.nodes.Nodup) :
    g1.nodes.length ≤ g2.nodes.length := by
  calc g1.nodes.length = g1.nodes.toFinset.card := (List.toFinset_card_of_nodup hn).symm
    _ ≤ g2.nodes.toFinset.card := Finset.card_le_card (nodeSet_mono h)
    _ ≤ g2.nodes.length := List.toFinset_card_le g2.nodes

theorem component_mono {g1 g2 : Graph} (h : SubG g1 g2) (hn : g1.nodes.Nodup) (u : ℕ) :
    component g1 u ⊆ component g2 u := by
  refine Finset.Subset.trans (reachN_mono h g1.nodes.length (Finset.Subset.refl _)) ?_
  exact reachN_mono_iter (nodes_length_mono h hn)

theorem reachN_subset_nodeSet {g : Graph} :
    ∀ (n : ℕ) {s : Finset ℕ}, s ⊆ nodeSet g → reachN g n s ⊆ nodeSet g := by
  intro n
  induction n with
  | zero => intro s hs; simpa [reachN] using hs
  | succ n ih =>
    intro s hs
    refine ih ?_
    intro v hv
    simp only [stepR, Finset.mem_union, Finset.mem_filter] at hv
    rcases hv with hv | ⟨hv, _⟩
    · exact hs hv
    · exact hv

theorem component_subset_nodeSet {g : Graph} {u : ℕ} (hu : u ∈ g.nodes) :
    component g u ⊆ nodeSet g := by
  refine reachN_subset_nodeSet _ ?_
  intro v hv
  simp only [Finset.mem_singleton] at hv
  subst hv
  simpa [nodeSet] using hu

theorem mem_component_self (g : Graph) (u : ℕ) : u ∈ component g u := by
  have h0 : u ∈ reachN g 0 {u} := by simp [reachN]
  exact reachN_mono_iter (Nat.zero_le _) h0

theorem le_foldr_max {l : List ℕ} {x : ℕ} (hx : x ∈ l) : x ≤ l.foldr max 0 := by
  induction l with
  | nil => cases hx
  | cons a l ih =>
    rcases List.mem_cons.1 hx with h | h
    · subst h; exact le_max_left _ _
    · exact le_trans (ih h) (le_max_right _ _)

theorem foldr_max_le {l : List ℕ} {b : ℕ} (h : ∀ x ∈ l, x ≤ b) : l.foldr max 0 ≤ b := by
  induction l with
  | nil => exact Nat.zero_le b
  | cons a l ih =>
    simp only [List.foldr_cons, max_le_iff]
    exact ⟨h a (List.mem_cons_self a l), ih fun x hx => h x (List.mem_cons_of_mem a hx)⟩

theorem lcc_mono {g1 g2 : Graph} (h : SubG g1 g2) (hn : g1.nodes.Nodup) :
    lcc g1 ≤ lcc g2 := by
  refine foldr_max_le ?_
  intro x hx
  rcases List.mem_map.1 hx with ⟨u, hu, rfl⟩
  calc (component g1 u).card ≤ (component g2 u).card :=
        Finset.card_le_card (component_mono h hn u)
    _ ≤ lcc g2 := le_foldr_max (List.mem_map.2 ⟨u, h.1 u hu, rfl⟩)

theorem lcc_le_length {g : Graph} (hn : g.nodes.Nodup) : lcc g ≤ g.nodes.length := by
  refine foldr_max_le ?_
  intro x hx
  rcases List.mem_map.1 hx with ⟨u, hu, rfl⟩
  calc (component g u).card ≤ (nodeSet g).card :=
        Finset.card_le_card (component_subset_nodeSet hu)
    _ = g.nodes.length := List.toFinset_card_of_nodup hn

theorem lcc_pos {g : Graph} (hne : g.nodes ≠ []) : 1 ≤ lcc g := by
  obtain ⟨u, hu⟩ := List.exists_mem_of_ne_nil g.nodes hne
  have h1 : 1 ≤ (component g u).card :=
    Finset.card_pos.2 ⟨u, mem_component_self g u⟩
  exact le_trans h1 (le_foldr_max (List.mem_map.2 ⟨u, hu, rfl⟩))

theorem removeNode_subG (g : Graph) (u : ℕ) : SubG (removeNode g u) g := by
  constructor
  · intro v hv
    exact (List.mem_filter.1 hv).1
  · intro a b hab
    simp only [adjB, List.any_eq_true] at hab ⊢
    obtain ⟨e, he, hp⟩ := hab
    exact ⟨e, (List.mem_filter.1 he).1, hp⟩

theorem removeEdge_subG (g : Graph) (a b : ℕ) : SubG (removeEdge g a b) g := by
  constructor
  · intro v hv
    exact hv
  · intro x y hxy
    simp only [adjB, List.any_eq_true] at hxy ⊢
    obtain ⟨e, he, hp⟩ := hxy
    exact ⟨e, (List.mem_filter.1 he).1, hp⟩

theorem removeNode_nodup {g : Graph} (hn : g.nodes.Nodup) (u : ℕ) :
    (removeNode g u).nodes.Nodup :=
  List.Nodup.filter _ hn

theorem removeEdge_nodes (g : Graph) (a b : ℕ) : (removeEdge g a b).nodes = g.nodes :=
  rfl

theorem lcc_nil {g : Graph} (h : g.nodes = []) : lcc g = 0 := by
  simp [lcc, h]

theorem lccNodeBranch_eq (g : Graph) : lccNodeBranch g = lcc g := by
  by_cases h : g.nodes = []
  · simp [lccNodeBranch, h, lcc_nil h]
  · simp [lccNodeBranch, h]

theorem lcc_of_isConnected {g : Graph} (hn : g.nodes.Nodup) (hc : isConnected g = true) :
    lcc g = g.nodes.length := by
  refine le_antisymm (lcc_le_length hn) ?_
  obtain ⟨u, t, hu⟩ : ∃ u t, g.nodes = u :: t := by
    cases hg : g.nodes with
    | nil => rw [isConnected, hg] at hc; cases hc
    | cons a t => exact ⟨a, t, rfl⟩
  have hall : ∀ v ∈ g.nodes, v ∈ component g u := by
    intro v hv
    have := hc
    rw [isConnected, hu] at this
    have h2 := List.all_eq_true.1 this v (hu ▸ hv)
    exact of_decide_eq_true h2
  have hsub : nodeSet g ⊆ component g u := by
    intro v hv
    exact hall v (by simpa [nodeSet] using hv)
  have hcard : g.nodes.length ≤ (component g u).card := by
    calc g.nodes.length = (nodeSet g).card := (List.toFinset_card_of_nodup hn).symm
      _ ≤ (component g u).card := Finset.card_le_card hsub
  exact le_trans hcard (le_foldr_max (List.mem_map.2 ⟨u, by rw [hu]; exact List.mem_cons_self u t, rfl⟩))

theorem lccEdgeBranch_eq {g : Graph} (hn : g.nodes.Nodup) : lccEdgeBranch g = lcc g := by
  by_cases h : isConnected g = true
  · simp [lccEdgeBranch, h, lcc_of_isConnected hn h]
  · simp [lccEdgeBranch, h]

/-- The first snapshot of the chain of working graphs, and every later
one, only ever shrinks: the statement bundles the chain with a bound on
its head. -/
theorem nodeSnaps_chain :
    ∀ (order : List ℕ) (g : Graph), g.nodes.Nodup →
      (nodeSnaps g order).Chain' (fun a b => lcc b ≤ lcc a) ∧
        (∀ h ∈ (nodeSnaps g order).head?, lcc h ≤ lcc g) ∧
        ∀ h ∈ nodeSnaps g order, h.nodes.Nodup := by
  intro order
  induction order with
  | nil => intro g _; simp [nodeSnaps]
  | cons u rest ih =>
    intro g hn
    have hn1 : (removeNode g u).nodes.Nodup := removeNode_nodup hn u
    obtain ⟨hc, hh, hd⟩ := ih (removeNode g u) hn1
    refine ⟨?_, ?_, ?_⟩
    · rw [nodeSnaps]
      exact List.chain'_cons'.2 ⟨hh, hc⟩
    · intro h hmem
      simp only [nodeSnaps, List.head?_cons, Option.mem_def, Option.some.injEq] at hmem
      subst hmem
      exact lcc_mono (removeNode_subG g u) hn1
    · intro h hmem
      rw [nodeSnaps] at hmem
      rcases List.mem_cons.1 hmem with h1 | h1
      · subst h1; exact hn1
      · exact hd h h1

/-- One step of the edge loop: the working graph after the defensive
`has_edge` check. -/
def edgeStep (g : Graph) (e : ℕ × ℕ) : Graph :=
  if adjB g e.1 e.2 then removeEdge g e.1 e.2 else g

theorem edgeStep_subG (g : Graph) (e : ℕ × ℕ) : SubG (edgeStep g e) g := by
  unfold edgeStep
  split
  · exact removeEdge_subG g e.1 e.2
  · exact subG_refl g

theorem edgeStep_nodes (g : Graph) (e : ℕ × ℕ) : (edgeStep g e).nodes = g.nodes := by
  unfold edgeStep
  split <;> rfl

theorem edgeSnaps_eq_step (g : Graph) (e : ℕ × ℕ) (rest : List (ℕ × ℕ)) :
    edgeSnaps g (e :: rest) = edgeStep g e :: edgeSnaps (edgeStep g e) rest :=
  rfl

theorem edgeSnaps_nodes :
    ∀ (plan : List (ℕ × ℕ)) (g : Graph) (h : Graph), h ∈ edgeSnaps g plan →
      h.nodes = g.nodes := by
  intro plan
  induction plan with
  | nil => intro g h hmem; simp [edgeSnaps] at hmem
  | cons e rest ih =>
    intro g h hmem
    rw [edgeSnaps_eq_step] at hmem
    rcases List.mem_cons.1 hmem with h1 | h1
    · subst h1; exact edgeStep_nodes g e
    · rw [ih (edgeStep g e) h h1]; exact edgeStep_nodes g e

theorem edgeSnaps_chain :
    ∀ (plan : List (ℕ × ℕ)) (g : Graph), g.nodes.Nodup →
      (edgeSnaps g plan).Chain' (fun a b => lcc b ≤ lcc a) ∧
        ∀ h ∈ (edgeSnaps g plan).head?, lcc h ≤ lcc g := by
  intro plan
  induction plan with
  | nil => intro g _; simp [edgeSnaps]
  | cons e rest ih =>
    intro g hn
    have hn1 : (edgeStep g e).nodes.Nodup := by rw [edgeStep_nodes]; exact hn
    obtain ⟨hc, hh⟩ := ih (edgeStep g e) hn1
    constructor
    · rw [edgeSnaps_eq_step]
      exact List.chain'_cons'.2 ⟨hh, hc⟩
    · intro h hmem
      rw [edgeSnaps_eq_step] at hmem
      simp only [List.head?_cons, Option.mem_def, Option.some.injEq] at hmem
      subst hmem
      exact lcc_mono (edgeStep_subG g e) hn1

/-- The chain statement transported through the `is_connected` branch
the edge loop actually records. -/
theorem edgeSnaps_chain_branch :
    ∀ (plan : List (ℕ × ℕ)) (g : Graph), g.nodes.Nodup →
      (edgeSnaps g plan).Chain' (fun a b => lccEdgeBranch b ≤ lccEdgeBranch a) := by
  intro plan
  induction plan with
  | nil => intro g _; simp [edgeSnaps]
  | cons e rest ih =>
    intro g hn
    have hn1 : (edgeStep g e).nodes.Nodup := by rw [edgeStep_nodes]; exact hn
    rw [edgeSnaps_eq_step]
    refine List.chain'_cons'.2 ⟨?_, ih (edgeStep g e) hn1⟩
    intro h hmem
    cases rest with
    | nil => cases hmem
    | cons e2 rest2 =>
      rw [edgeSnaps_eq_step] at hmem
      simp only [List.head?_cons, Option.mem_def, Option.some.injEq] at hmem
      subst hmem
      have hn2 : (edgeStep (edgeStep g e) e2).nodes.Nodup := by
        rw [edgeStep_nodes]; exact hn1
      rw [lccEdgeBranch_eq hn2, lccEdgeBranch_eq hn1]
      exact lcc_mono (edgeStep_subG _ _) hn2

theorem edgeSnaps_length :
    ∀ (plan : List (ℕ × ℕ)) (g : Graph), (edgeSnaps g plan).length = plan.length := by
  intro plan
  induction plan with
  | nil => intro g; rfl
  | cons e rest ih => intro g; rw [edgeSnaps_eq_step, List.length_cons, ih]; rfl

theorem nodeSnaps_length :
    ∀ (order : List ℕ) (g : Graph), (nodeSnaps g order).length = order.length := by
  intro order
  induction order with
  | nil => intro g; rfl
  | cons u rest ih => intro g; rw [nodeSnaps, List.length_cons, ih]; rfl

/-- Division by a fixed natural denominator is monotone. -/
theorem divN_mono {a b : ℕ} (N : ℕ) (h : a ≤ b) : (a : ℚ) / N ≤ (b : ℚ) / N := by
  rw [div_eq_mul_inv, div_eq_mul_inv]
  exact mul_le_mul_of_nonneg_right (by exact_mod_cast h) (inv_nonneg.2 (Nat.cast_nonneg N))

/-- The x-coordinates a loop produces from step index `i` on: `(i+k+1)/D`
for `k < len`. -/
def xFormula (i D len : ℕ) : List ℚ :=
  (List.range len).map (fun (k : ℕ) => ((i : ℚ) + (k : ℚ) + 1) / (D : ℚ))

theorem xFormula_succ (i D len : ℕ) :
    xFormula i D (len + 1) = (((i : ℚ) + 1) / (D : ℚ)) :: xFormula (i + 1) D len := by
  unfold xFormula
  rw [List.range_succ_eq_map, List.map_cons, List.map_map]
  congr 1
  · norm_num
  · refine List.map_congr_left ?_
    intro k _
    simp only [Function.comp_apply]
    push_cast
    ring

/-- Successful runs of the node loop produce exactly the x-grid over the
original node count and the per-snapshot largest-component fractions. -/
theorem nodeLoop_eq_ok :
    ∀ (order : List ℕ) {g : Graph} {i N : ℕ} {xs ys : List ℚ},
      nodeLoop N g i order = .ok (xs, ys) →
      xs = xFormula i N order.length ∧
        ys = (nodeSnaps g order).map (fun h => (lccNodeBranch h : ℚ) / (N : ℚ)) := by
  intro order
  induction order with
  | nil =>
    intro g i N xs ys h
    rw [nodeLoop] at h
    injection h with h
    injection h with h1 h2
    exact ⟨h1.symm ▸ rfl, h2.symm ▸ rfl⟩
  | cons u rest ih =>
    intro g i N xs ys h
    rw [nodeLoop] at h
    by_cases hu : u ∈ g.nodes
    · rw [if_pos hu] at h
      cases hrec : nodeLoop N (removeNode g u) (i + 1) rest with
      | ok p =>
        obtain ⟨xs1, ys1⟩ := p
        rw [hrec] at h
        injection h with h
        injection h with h1 h2
        obtain ⟨e1, e2⟩ := ih hrec
        constructor
        · rw [← h1, e1, List.length_cons, xFormula_succ]
        · rw [← h2, e2, nodeSnaps, List.map_cons]
      | error e =>
        rw [hrec] at h
        cases h
    · rw [if_neg hu] at h
      cases h

/-- If every target of the plan is present when reached, the node loop
succeeds and its output has the model form. -/
theorem nodeLoop_of_nodeOk :
    ∀ (order : List ℕ) {g : Graph} (i N : ℕ), nodeOk g order = true →
      nodeLoop N g i order =
        .ok (xFormula i N order.length,
             (nodeSnaps g order).map (fun h => (lccNodeBranch h : ℚ) / (N : ℚ))) := by
  intro order
  induction order with
  | nil =>
    intro g i N _
    rfl
  | cons u rest ih =>
    intro g i N h
    rw [nodeOk, Bool.and_eq_true, decide_eq_true_eq] at h
    obtain ⟨hu, hrest⟩ := h
    rw [nodeLoop, if_pos hu, ih (i + 1) N hrest]
    rw [List.length_cons, xFormula_succ, nodeSnaps, List.map_cons]

/-- The edge loop is total; its output always has the model form. -/
theorem edgeLoop_eq :
    ∀ (plan : List (ℕ × ℕ)) (g : Graph) (i N E : ℕ),
      edgeLoop N E g i plan =
        (xFormula i E plan.length,
         (edgeSnaps g plan).map (fun h => (lccEdgeBranch h : ℚ) / (N : ℚ))) := by
  intro plan
  induction plan with
  | nil => intro g i N E; rfl
  | cons e rest ih =>
    intro g i N E
    rw [edgeLoop]
    show (_ :: (edgeLoop N E (edgeStep g e) (i + 1) rest).1,
          _ :: (edgeLoop N E (edgeStep g e) (i + 1) rest).2) = _
    rw [ih (edgeStep g e) (i + 1) N E]
    rw [List.length_cons, xFormula_succ, edgeSnaps_eq_step, List.map_cons]
    rfl

theorem pyInt_natCast (n : ℕ) : pyInt (n : ℚ) = n := by
  simp [pyInt, Nat.cast_nonneg, Int.floor_natCast]

theorem numRemoveNode_one (g : Graph) : numRemoveNode g 1 = g.nodes.length := by
  simp [numRemoveNode, pyInt_natCast]

/-- C1. For every input graph and every removal strategy — random node,
targeted-degree node, overlap-ascending edge, overlap-descending edge —
the `fraction_remaining` values (`y_vals` of `simulate_attack` and of
`edge_overlap_removal`) form a non-increasing sequence in step order. -/
theorem claim1_fraction_remaining_monotone :
    (∀ (sample : List ℕ → ℕ → List ℕ) (g : Graph) (strategy : String) (f : ℚ)
       (xs ys : List ℚ), g.nodes.Nodup →
       simulate_attack sample g strategy f = .ok (xs, ys) →
       ys.Chain' (fun a b => b ≤ a)) ∧
    ∀ (g : Graph) (f : ℚ) (ascending : Bool), g.nodes.Nodup →
      ((edge_overlap_removal g f ascending).2).Chain' (fun a b => b ≤ a) := by
  constructor
  · intro sample g strategy f xs ys hn h
    unfold simulate_attack at h
    by_cases hs : strategy = "random" ∨ strategy = "targeted"
    · rw [if_pos hs] at h
      obtain ⟨-, hys⟩ := nodeLoop_eq_ok _ h
      subst hys
      rw [List.chain'_map]
      refine ((nodeSnaps_chain _ g hn).1).imp ?_
      intro a b hab
      rw [lccNodeBranch_eq a, lccNodeBranch_eq b]
      exact divN_mono _ hab
    · rw [if_neg hs] at h
      cases h
  · intro g f ascending hn
    unfold edge_overlap_removal
    rw [edgeLoop_eq]
    rw [List.chain'_map]
    refine (edgeSnaps_chain_branch _ g hn).imp ?_
    intro a b hab
    exact divN_mono _ hab

/-- Witness for C1 at a concrete two-node graph under the targeted
strategy. -/
theorem claim1_witness :
    ([0, 1] : List ℕ).Nodup ∧
      List.Chain' (fun a b => b ≤ a) [(1 : ℚ)/2, 0] := by
  refine ⟨by decide, ?_⟩
  refine claim1_fraction_remaining_monotone.1 (fun l n => l.take n)
    ⟨[0, 1], [((0, 1), 1)]⟩ "targeted" 1 [1/2, 1] [1/2, 0] (by decide) ?_
  rw [simulate_attack, if_pos (Or.inr rfl)]
  rw [show nodeOrderOf (fun l n => l.take n) ⟨[0, 1], [((0, 1), 1)]⟩ "targeted" 1 = [0, 1] by
    rw [nodeOrderOf, if_neg (by decide), if_pos rfl, numRemoveNode_one]; decide]
  rw [nodeLoop_of_nodeOk [0, 1] 0 _ (by decide)]
  congr 1
  congr 1
  · show xFormula 0 2 2 = [1/2, 1]
    simp [xFormula, List.range_succ]
  · show ((lccNodeBranch (removeNode ⟨[0, 1], [((0, 1), 1)]⟩ 0) : ℚ) / 2) ::
      ((lccNodeBranch (removeNode (removeNode ⟨[0, 1], [((0, 1), 1)]⟩ 0) 1) : ℚ) / 2) :: [] =
      [1/2, 0]
    rw [show lccNodeBranch (removeNode ⟨[0, 1], [((0, 1), 1)]⟩ 0) = 1 from by decide,
        show lccNodeBranch (removeNode (removeNode ⟨[0, 1], [((0, 1), 1)]⟩ 0) 1) = 0 from by decide]
    norm_num

/-- C5. The computed topological overlap of an edge `(u, v)` is
`|neighbors(u) ∩ neighbors(v)| / |neighbors(u) ∪ neighbors(v)|`, an empty
union yields `0` instead of a division error (division is total here, and
the guarded branch returns `0`), and an edge whose endpoints share no
neighbors has overlap exactly `0`. -/
theorem claim5_overlap_formula :
    ∀ (g : Graph) (u v : ℕ),
      overlapScore g u v =
        ((neighborSet g u ∩ neighborSet g v).card : ℚ) /
          ((neighborSet g u ∪ neighborSet g v).card : ℚ) ∧
      (neighborSet g u ∩ neighborSet g v = ∅ → overlapScore g u v = 0) := by
  intro g u v
  constructor
  · show (if neighborSet g u ∪ neighborSet g v = ∅ then (0 : ℚ)
      else ((neighborSet g u ∩ neighborSet g v).card : ℚ) /
        ((neighborSet g u ∪ neighborSet g v).card : ℚ)) = _
    by_cases h : neighborSet g u ∪ neighborSet g v = ∅
    · rw [if_pos h, h]
      simp
    · rw [if_neg h]
  · intro h
    show (if neighborSet g u ∪ neighborSet g v = ∅ then (0 : ℚ)
      else ((neighborSet g u ∩ neighborSet g v).card : ℚ) /
        ((neighborSet g u ∪ neighborSet g v).card : ℚ)) = 0
    by_cases h2 : neighborSet g u ∪ neighborSet g v = ∅
    · rw [if_pos h2]
    · rw [if_neg h2, h]
      simp

/-- Witness for C5: on the single-edge graph `0 — 1` the endpoints share
no neighbors and the overlap is exactly `0`. -/
theorem claim5_witness :
    neighborSet ⟨[0, 1], [((0, 1), 1)]⟩ 0 ∩ neighborSet ⟨[0, 1], [((0, 1), 1)]⟩ 1 = ∅ ∧
      overlapScore ⟨[0, 1], [((0, 1), 1)]⟩ 0 1 = 0 :=
  ⟨by decide, (claim5_overlap_formula ⟨[0, 1], [((0, 1), 1)]⟩ 0 1).2 (by decide)⟩

theorem stepR_of_isolated {g : Graph} {u : ℕ}
    (h : ∀ v ∈ g.nodes, adjB g u v = false) : stepR g {u} = {u} := by
  unfold stepR
  rw [Finset.union_eq_left]
  intro v hv
  rw [Finset.mem_filter] at hv
  obtain ⟨hv1, w, hw, hadj⟩ := hv
  rw [Finset.mem_singleton] at hw
  subst hw
  rw [h v (by simpa [nodeSet] using hv1)] at hadj
  cases hadj

theorem component_of_isolated {g : Graph} {u : ℕ}
    (h : ∀ v ∈ g.nodes, adjB g u v = false) : component g u = {u} := by
  unfold component
  generalize g.nodes.length = n
  induction n with
  | zero => rfl
  | succ n ih =>
    show reachN g n (stepR g {u}) = {u}
    rw [stepR_of_isolated h]
    exact ih

theorem foldr_max_ones {l : List ℕ} (h : ∀ x ∈ l, x = 1) (hne : l ≠ []) :
    l.foldr max 0 = 1 := by
  refine le_antisymm (foldr_max_le fun x hx => le_of_eq (h x hx)) ?_
  obtain ⟨x, hx⟩ := List.exists_mem_of_ne_nil l hne
  calc 1 = x := (h x hx).symm
    _ ≤ l.foldr max 0 := le_foldr_max hx

theorem lcc_of_edgeless {g : Graph} (hne : g.nodes ≠ []) (he : g.edges = []) :
    lcc g = 1 := by
  unfold lcc
  refine foldr_max_ones ?_ (by simpa using hne)
  intro x hx
  rcases List.mem_map.1 hx with ⟨u, _, rfl⟩
  have hiso : ∀ v ∈ g.nodes, adjB g u v = false := by
    intro v _
    simp [adjB, he]
  rw [component_of_isolated hiso]
  simp

/-- C7. When the snapshot has zero nodes the recorded largest-component
size is `0`; otherwise isolated nodes count as their own components of
size `1`, so a graph disconnected into singletons records `1`, not `0`,
in both the node-loop and the edge-loop branch computations. -/
theorem claim7_largest_component_edge_cases :
    (∀ g : Graph, g.nodes = [] → lccNodeBranch g = 0) ∧
    (∀ g : Graph, g.nodes.Nodup → g.nodes ≠ [] → g.edges = [] →
       lccNodeBranch g = 1 ∧ lccEdgeBranch g = 1) ∧
    ∀ (g : Graph) (u : ℕ), u ∈ g.nodes → (∀ v ∈ g.nodes, adjB g u v = false) →
      (component g u).card = 1 := by
  refine ⟨?_, ?_, ?_⟩
  · intro g h
    rw [lccNodeBranch, if_pos h]
  · intro g hn hne he
    constructor
    · rw [lccNodeBranch, if_neg hne, lcc_of_edgeless hne he]
    · rw [lccEdgeBranch_eq hn, lcc_of_edgeless hne he]
  · intro g u _ hiso
    rw [component_of_isolated hiso]
    simp

/-- Witness for C7 at three concrete graphs: the empty graph, the
two-isolated-node graph, and an isolated node beside one edge. -/
theorem claim7_witness :
    lccNodeBranch ⟨[], []⟩ = 0 ∧
      (lccNodeBranch ⟨[0, 1], []⟩ = 1 ∧ lccEdgeBranch ⟨[0, 1], []⟩ = 1) ∧
      (component ⟨[0, 1, 2], [((0, 1), 1)]⟩ 2).card = 1 :=
  ⟨claim7_largest_component_edge_cases.1 ⟨[], []⟩ rfl,
   claim7_largest_component_edge_cases.2.1 ⟨[0, 1], []⟩ (by decide) (by decide) rfl,
   claim7_largest_component_edge_cases.2.2 ⟨[0, 1, 2], [((0, 1), 1)]⟩ 2 (by decide) (by decide)⟩

/-- C9. The targeted strategy never consults the randomness source, the
overlap runners take no randomness at all, and the random strategy
depends on the randomness source only through the one sample it draws —
so a caller fixing the seed (hence the drawn sample) reproduces the run
identically. -/
theorem claim9_determinism :
    (∀ (s1 s2 : List ℕ → ℕ → List ℕ) (g : Graph) (f : ℚ),
       simulate_attack s1 g "targeted" f = simulate_attack s2 g "targeted" f) ∧
    (∀ (s1 s2 : List ℕ → ℕ → List ℕ) (g : Graph) (f : ℚ),
       s1 g.nodes (numRemoveNode g f) = s2 g.nodes (numRemoveNode g f) →
       simulate_attack s1 g "random" f = simulate_attack s2 g "random" f) ∧
    ∀ (g : Graph) (f : ℚ) (ascending : Bool),
      edge_overlap_removal g f ascending = edge_overlap_removal g f ascending := by
  refine ⟨?_, ?_, fun _ _ _ => rfl⟩
  · intro s1 s2 g f
    rw [simulate_attack, simulate_attack, if_pos (Or.inr rfl), if_pos (Or.inr rfl),
        nodeOrderOf, nodeOrderOf]
    simp only [if_neg (show ¬("targeted" = "random") from by decide), if_pos rfl]
  · intro s1 s2 g f h
    rw [simulate_attack, simulate_attack, if_pos (Or.inl rfl), if_pos (Or.inl rfl),
        nodeOrderOf, nodeOrderOf, if_pos rfl, if_pos rfl, h]

/-- Witness for C9: two identical sampling oracles yield identical random
runs. -/
theorem claim9_witness :
    simulate_attack (fun l n => l.take n) ⟨[0], []⟩ "random" 1 =
      simulate_attack (fun l n => l.take n) ⟨[0], []⟩ "random" 1 :=
  claim9_determinism.2.1 (fun l n => l.take n) (fun l n => l.take n) ⟨[0], []⟩ 1 rfl

/-- The node loop with the mutation made explicit: the state carries the
caller's graph alongside the working copy, and the loop body (the direct
translation of `G.remove_node`; `G` is the copy) only ever rebinds the
working component. -/
def nodeLoopFrame (N : ℕ) :
    Graph × Graph → ℕ → List ℕ → Except String (List ℚ × List ℚ) × Graph
  | (caller, _), _, [] => (.ok ([], []), caller)
  | (caller, G), i, u :: rest =>
    if u ∈ G.nodes then
      match nodeLoopFrame N (caller, removeNode G u) (i + 1) rest with
      | (.ok (xs, ys), c) =>
        (.ok ((((i : ℚ) + 1) / (N : ℚ)) :: xs,
              ((lccNodeBranch (removeNode G u) : ℚ) / (N : ℚ)) :: ys), c)
      | (.error e, c) => (.error e, c)
    else (.error "NetworkXError", caller)

/-- `simulate_attack` with the `G = graph.copy()` step made explicit:
the initial state pairs the caller's graph with its value copy. -/
def simulate_attack_frame (sample : List ℕ → ℕ → List ℕ) (graph : Graph)
    (strategy : String) (remove_fraction : ℚ) :
    Except String (List ℚ × List ℚ) × Graph :=
  if strategy = "random" ∨ strategy = "targeted" then
    nodeLoopFrame graph.nodes.length (graph, graph) 0
      (nodeOrderOf sample graph strategy remove_fraction)
  else (.error "Invalid strategy", graph)

/-- The edge loop with the mutation made explicit, as for the node loop. -/
def edgeLoopFrame (N E : ℕ) :
    Graph × Graph → ℕ → List (ℕ × ℕ) → (List ℚ × List ℚ) × Graph
  | (caller, _), _, [] => (([], []), caller)
  | (caller, G), i, e :: rest =>
    let g1 := if adjB G e.1 e.2 then removeEdge G e.1 e.2 else G
    let res := edgeLoopFrame N E (caller, g1) (i + 1) rest
    (((((i : ℚ) + 1) / (E : ℚ)) :: res.1.1,
      ((lccEdgeBranch g1 : ℚ) / (N : ℚ)) :: res.1.2), res.2)

/-- `edge_overlap_removal` with the `G = graph.copy()` step made
explicit. -/
def edge_overlap_removal_frame (graph : Graph) (remove_fraction : ℚ)
    (ascending : Bool) : (List ℚ × List ℚ) × Graph :=
  edgeLoopFrame graph.nodes.length graph.edges.length (graph, graph) 0
    (edgePlanOf graph remove_fraction ascending)

theorem nodeLoopFrame_spec :
    ∀ (order : List ℕ) (c G : Graph) (i N : ℕ),
      nodeLoopFrame N (c, G) i order = (nodeLoop N G i order, c) := by
  intro order
  induction order with
  | nil => intro c G i N; rfl
  | cons u rest ih =>
    intro c G i N
    rw [nodeLoopFrame, nodeLoop]
    by_cases hu : u ∈ G.nodes
    · rw [if_pos hu, if_pos hu, ih c (removeNode G u) (i + 1) N]
      cases nodeLoop N (removeNode G u) (i + 1) rest with
      | ok p => obtain ⟨xs, ys⟩ := p; rfl
      | error e => rfl
    · rw [if_neg hu, if_neg hu]
  -- the caller component is threaded through untouched in all branches

theorem edgeLoopFrame_spec :
    ∀ (plan : List (ℕ × ℕ)) (c G : Graph) (i N E : ℕ),
      edgeLoopFrame N E (c, G) i plan = (edgeLoop N E G i plan, c) := by
  intro plan
  induction plan with
  | nil => intro c G i N E; rfl
  | cons e rest ih =>
    intro c G i N E
    rw [edgeLoopFrame, edgeLoop]
    show ((_ :: (edgeLoopFrame N E (c, edgeStep G e) (i + 1) rest).1.1,
           _ :: (edgeLoopFrame N E (c, edgeStep G e) (i + 1) rest).1.2),
          (edgeLoopFrame N E (c, edgeStep G e) (i + 1) rest).2) = _
    rw [ih c (edgeStep G e) (i + 1) N E]
    rfl

/-- C10. A run is a pure function of its inputs with respect to the
caller's graph: both runners work on a copy, so after the run returns the
caller's graph — node list, edge list and weights — is exactly the input,
and the trajectory is the one the plain runners compute. -/
theorem claim10_frame :
    ∀ (sample : List ℕ → ℕ → List ℕ) (g : Graph) (strategy : String) (f : ℚ)
      (ascending : Bool),
      (simulate_attack_frame sample g strategy f).2 = g ∧
      (simulate_attack_frame sample g strategy f).1 = simulate_attack sample g strategy f ∧
      (edge_overlap_removal_frame g f ascending).2 = g ∧
      (edge_overlap_removal_frame g f ascending).1 = edge_overlap_removal g f ascending := by
  intro sample g strategy f ascending
  have hsim : simulate_attack_frame sample g strategy f =
      (simulate_attack sample g strategy f, g) := by
    unfold simulate_attack_frame simulate_attack
    by_cases hs : strategy = "random" ∨ strategy = "targeted"
    · rw [if_pos hs, if_pos hs, nodeLoopFrame_spec]
    · rw [if_neg hs, if_neg hs]
  have hedge : edge_overlap_removal_frame g f ascending =
      (edge_overlap_removal g f ascending, g) := by
    unfold edge_overlap_removal_frame edge_overlap_removal
    rw [edgeLoopFrame_spec]
  exact ⟨by rw [hsim], by rw [hsim], by rw [hedge], by rw [hedge]⟩

/-- Inserting an element into a list with the reflexive descending
comparison passes only over strictly larger keys, so the elements of any
fixed key class keep their relative order, with the inserted element in
front. -/
theorem filter_orderedInsert_stable (d : ℕ) (a : ℕ × ℕ) :
    ∀ s : List (ℕ × ℕ),
      ((s.orderedInsert (fun a b => b.2 ≤ a.2) a).filter (fun x => x.2 == d)) =
        if a.2 = d then a :: s.filter (fun x => x.2 == d)
        else s.filter (fun x => x.2 == d) := by
  intro s
  induction s with
  | nil =>
    show List.filter (fun x => x.2 == d) [a] = _
    rw [List.filter_cons]
    by_cases ha : a.2 = d
    · simp [ha]
    · simp [ha]
  | cons b s ih =>
    rw [List.orderedInsert]
    by_cases hr : b.2 ≤ a.2
    · rw [if_pos hr]
      by_cases ha : a.2 = d
      · simp [List.filter_cons, ha]
      · simp [List.filter_cons, ha]
    · rw [if_neg hr]
      have hab : a.2 < b.2 := lt_of_not_le hr
      by_cases ha : a.2 = d
      · have hb : ¬(b.2 = d) := by
          intro hbd
          rw [ha] at hab
          rw [hbd] at hab
          exact lt_irrefl d hab
        rw [List.filter_cons, List.filter_cons, ih, if_pos ha]
        simp [beq_iff_eq, hb, ha]
      · rw [List.filter_cons, List.filter_cons, ih, if_neg ha]
        by_cases hb : b.2 = d
        · simp [beq_iff_eq, hb, ha]
        · simp [beq_iff_eq, hb, ha]

/-- Stability of the descending insertion sort: each equal-key class of
the output is the equal-key class of the input, in the input's order. -/
theorem filter_insertionSort_stable (d : ℕ) :
    ∀ l : List (ℕ × ℕ),
      ((l.insertionSort (fun a b => b.2 ≤ a.2)).filter (fun x => x.2 == d)) =
        l.filter (fun x => x.2 == d) := by
  intro l
  induction l with
  | nil => rfl
  | cons a l ih =>
    rw [List.insertionSort, filter_orderedInsert_stable, ih, List.filter_cons]
    by_cases ha : a.2 = d
    · simp [ha]
    · simp [ha]

/-- C6. The targeted-degree removal order lists the graph's nodes sorted
by degree in descending order, and ties between equal-degree nodes keep
the stable original iteration order of the graph's node list: filtering
the order down to any fixed degree value returns exactly the original
node list filtered to that degree value. -/
theorem claim6_targeted_order :
    ∀ g : Graph,
      ((targetedOrder g).map Prod.fst).Perm g.nodes ∧
      ((targetedOrder g).map Prod.fst).Pairwise (fun a b => degree g b ≤ degree g a) ∧
      ∀ d : ℕ,
        ((targetedOrder g).map Prod.fst).filter (fun u => degree g u == d) =
          g.nodes.filter (fun u => degree g u == d) := by
  intro g
  have hmem : ∀ p ∈ targetedOrder g, p.2 = degree g p.1 := by
    intro p hp
    have hp2 : p ∈ degreePairs g := (List.mem_insertionSort _).1 hp
    rcases List.mem_map.1 hp2 with ⟨n, _, rfl⟩
    rfl
  have hfst : (degreePairs g).map Prod.fst = g.nodes := by
    rw [degreePairs, List.map_map]
    exact List.map_id'' (fun _ => rfl) g.nodes
  refine ⟨?_, ?_, ?_⟩
  · exact hfst ▸ (List.perm_insertionSort _ (degreePairs g)).map Prod.fst
  · rw [List.pairwise_map]
    haveI : IsTotal (ℕ × ℕ) (fun a b => b.2 ≤ a.2) := ⟨fun a b => le_total b.2 a.2⟩
    haveI : IsTrans (ℕ × ℕ) (fun a b => b.2 ≤ a.2) :=
      ⟨fun _ _ _ hab hbc => le_trans hbc hab⟩
    have hs : (targetedOrder g).Pairwise (fun a b => b.2 ≤ a.2) :=
      List.sorted_insertionSort _ (degreePairs g)
    refine hs.imp_of_mem ?_
    intro a b ha hb hab
    rw [← hmem a ha, ← hmem b hb]
    exact hab
  · intro d
    rw [List.filter_map]
    have h1 : (targetedOrder g).filter ((fun u => degree g u == d) ∘ Prod.fst) =
        (targetedOrder g).filter (fun x => x.2 == d) := by
      refine List.filter_congr ?_
      intro p hp
      simp only [Function.comp_apply, hmem p hp]
    rw [h1, targetedOrder, filter_insertionSort_stable]
    have h2 : (degreePairs g).filter (fun x => x.2 == d) =
        (g.nodes.filter (fun n => degree g n == d)).map (fun n => (n, degree g n)) := by
      rw [degreePairs, List.filter_map]
      rfl
    rw [h2, List.map_map]
    exact List.map_id'' (fun _ => rfl) _

theorem numRemoveNode_of_nil {g : Graph} (h : g.nodes = []) (f : ℚ) :
    numRemoveNode g f = 0 := by
  rw [numRemoveNode, h]
  norm_num [pyInt]

/-- C4 counterexample: on the 0-node graph the node runner returns the
empty successful result `([], [])`; it does not fail, and no
`EmptyGraphError` exists anywhere in the code. -/
theorem claim4_counterexample :
    simulate_attack (fun l n => l.take n) ⟨[], []⟩ "targeted" 1 = .ok ([], []) := by
  rw [simulate_attack, if_pos (Or.inr rfl), nodeOrderOf, if_neg (by decide), if_pos rfl,
      numRemoveNode_of_nil rfl]
  rfl

/-- C4 amended: computing a removal order on a graph with zero elements
of the requested target kind yields the empty successful run `([], [])`
for both node strategies (given that sampling `0` elements from an empty
pool yields the empty sample, as `random.sample` does) and for the edge
runner — never an `EmptyGraphError`. -/
theorem claim4_amended :
    ∀ (sample : List ℕ → ℕ → List ℕ) (g : Graph) (f : ℚ) (ascending : Bool),
      g.nodes = [] → sample [] 0 = [] →
      simulate_attack sample g "targeted" f = .ok ([], []) ∧
      simulate_attack sample g "random" f = .ok ([], []) ∧
      (g.edges = [] → edge_overlap_removal g f ascending = ([], [])) := by
  intro sample g f ascending hg hsample
  refine ⟨?_, ?_, ?_⟩
  · rw [simulate_attack, if_pos (Or.inr rfl), nodeOrderOf, if_neg (by decide), if_pos rfl,
        numRemoveNode_of_nil hg, List.take_zero, List.map_nil]
    rfl
  · rw [simulate_attack, if_pos (Or.inl rfl), nodeOrderOf, if_pos rfl,
        numRemoveNode_of_nil hg, hg, hsample]
    rfl
  · intro he
    rw [edge_overlap_removal, edgePlanOf, he]
    norm_num [pyInt]
    rfl

/-- Witness for C4 amended at the empty graph. -/
theorem claim4_witness :
    simulate_attack (fun l n => l.take n) ⟨[], []⟩ "targeted" 2 = .ok ([], []) ∧
      simulate_attack (fun l n => l.take n) ⟨[], []⟩ "random" 2 = .ok ([], []) ∧
      ((⟨[], []⟩ : Graph).edges = [] →
        edge_overlap_removal ⟨[], []⟩ 2 true = ([], [])) :=
  claim4_amended (fun l n => l.take n) ⟨[], []⟩ 2 true rfl rfl

/-- C8 counterexample: a removal target absent from the snapshot makes
the node runner fail with `NetworkXError` — there is no defensive no-op
skip on the node path, and no skipped-step count in any output. -/
theorem claim8_counterexample :
    simulate_attack (fun _ _ => [2]) ⟨[1], []⟩ "random" 1 = .error "NetworkXError" := by
  rw [simulate_attack, if_pos (Or.inl rfl), nodeOrderOf, if_pos rfl]
  rfl

/-- C8 amended: only the edge runner guards against a missing target —
a step whose edge is already gone leaves the graph untouched and still
records a trajectory point — while the node runner performs no check and
fails on a missing node; neither runner reports a count of skipped steps
(each returns just the two coordinate lists). -/
theorem claim8_amended :
    (∀ (N E : ℕ) (g : Graph) (i : ℕ) (e : ℕ × ℕ) (rest : List (ℕ × ℕ)),
       adjB g e.1 e.2 = false →
       edgeLoop N E g i (e :: rest) =
         ((((i : ℚ) + 1) / (E : ℚ)) :: (edgeLoop N E g (i + 1) rest).1,
          ((lccEdgeBranch g : ℚ) / (N : ℚ)) :: (edgeLoop N E g (i + 1) rest).2)) ∧
    ∀ (N : ℕ) (g : Graph) (i u : ℕ) (rest : List ℕ),
      u ∉ g.nodes → nodeLoop N g i (u :: rest) = .error "NetworkXError" := by
  constructor
  · intro N E g i e rest h
    have hstep : edgeStep g e = g := by
      rw [edgeStep, if_neg (by rw [h]; exact Bool.false_ne_true)]
    rw [edgeLoop]
    show ((_ :: (edgeLoop N E (edgeStep g e) (i + 1) rest).1,
           _ :: (edgeLoop N E (edgeStep g e) (i + 1) rest).2)) = _
    rw [hstep]
    rw [if_neg (show ¬(adjB g e.1 e.2 = true) from by rw [h]; exact Bool.false_ne_true)]
  · intro N g i u rest h
    rw [nodeLoop, if_neg h]

/-- Witness for C8 amended: a missing edge is skipped with the point
still recorded; a missing node aborts the run. -/
theorem claim8_witness :
    edgeLoop 2 1 ⟨[0, 1], [((0, 1), 1)]⟩ 0 [(5, 6)] =
      ((((0 : ℕ) : ℚ) + 1) / ((1 : ℕ) : ℚ) ::
          (edgeLoop 2 1 ⟨[0, 1], [((0, 1), 1)]⟩ 1 []).1,
       ((lccEdgeBranch ⟨[0, 1], [((0, 1), 1)]⟩ : ℚ) / ((2 : ℕ) : ℚ)) ::
          (edgeLoop 2 1 ⟨[0, 1], [((0, 1), 1)]⟩ 1 []).2) ∧
      nodeLoop 2 ⟨[0, 1], [((0, 1), 1)]⟩ 0 [5] = .error "NetworkXError" :=
  ⟨claim8_amended.1 2 1 ⟨[0, 1], [((0, 1), 1)]⟩ 0 (5, 6) [] (by decide),
   claim8_amended.2 2 ⟨[0, 1], [((0, 1), 1)]⟩ 0 5 [] (by decide)⟩

/-- C2 counterexample: on the path `0 — 1 — 2 — 3` with
`remove_fraction = 1/2` the plan has length `2`, yet the first recorded
x-value is `1/4` (the step index over the original node count), not
`1/len(plan) = 1/2` as the claim states. -/
theorem claim2_counterexample :
    (nodeOrderOf (fun l n => l.take n)
        ⟨[0, 1, 2, 3], [((0, 1), 1), ((1, 2), 1), ((2, 3), 1)]⟩ "targeted" (1/2)).length = 2 ∧
      simulate_attack (fun l n => l.take n)
        ⟨[0, 1, 2, 3], [((0, 1), 1), ((1, 2), 1), ((2, 3), 1)]⟩ "targeted" (1/2) =
        .ok ([1/4, 1/2], [1/2, 1/4]) ∧
      (1 : ℚ)/4 ≠ (1 : ℚ)/2 := by
  have hnum : numRemoveNode ⟨[0, 1, 2, 3], [((0, 1), 1), ((1, 2), 1), ((2, 3), 1)]⟩ (1/2) = 2 := by
    rw [numRemoveNode, show ((⟨[0, 1, 2, 3], [((0, 1), 1), ((1, 2), 1), ((2, 3), 1)]⟩ :
          Graph).nodes.length : ℚ) = ((4 : ℕ) : ℚ) from by norm_num,
        show (1/2 : ℚ) * ((4 : ℕ) : ℚ) = ((2 : ℕ) : ℚ) from by norm_num, pyInt_natCast]
    rfl
  have horder : nodeOrderOf (fun l n => l.take n)
      ⟨[0, 1, 2, 3], [((0, 1), 1), ((1, 2), 1), ((2, 3), 1)]⟩ "targeted" (1/2) = [1, 2] := by
    rw [nodeOrderOf, if_neg (by decide), if_pos rfl, hnum]
    decide
  refine ⟨by rw [horder]; rfl, ?_, by norm_num⟩
  rw [simulate_attack, if_pos (Or.inr rfl), horder,
      nodeLoop_of_nodeOk [1, 2] 0 _ (by decide)]
  congr 1
  congr 1
  · show xFormula 0 4 2 = [1/4, 1/2]
    simp [xFormula, List.range_succ]
    norm_num
  · show ((lccNodeBranch (removeNode ⟨[0, 1, 2, 3],
        [((0, 1), 1), ((1, 2), 1), ((2, 3), 1)]⟩ 1) : ℚ) / 4) ::
      ((lccNodeBranch (removeNode (removeNode ⟨[0, 1, 2, 3],
        [((0, 1), 1), ((1, 2), 1), ((2, 3), 1)]⟩ 1) 2) : ℚ) / 4) :: [] = [1/2, 1/4]
    rw [show lccNodeBranch (removeNode ⟨[0, 1, 2, 3],
          [((0, 1), 1), ((1, 2), 1), ((2, 3), 1)]⟩ 1) = 2 from by decide,
        show lccNodeBranch (removeNode (removeNode ⟨[0, 1, 2, 3],
          [((0, 1), 1), ((1, 2), 1), ((2, 3), 1)]⟩ 1) 2) = 1 from by decide]
    norm_num

/-- C2 amended: the point recorded at 1-indexed step `i` is
`(i / total_element_count, largest_component_size / N0)` — the x-step is
the ORIGINAL element count of the run's target kind (node count `N0` for
node removal, edge count `E0` for edge removal), which equals
`len(plan)` only when `remove_fraction = 1`; the y-denominator is the
original node count `N0` throughout, including under edge removal. -/
theorem claim2_amended :
    (∀ (sample : List ℕ → ℕ → List ℕ) (g : Graph) (strategy : String) (f : ℚ)
       (xs ys : List ℚ),
       simulate_attack sample g strategy f = .ok (xs, ys) →
       xs = xFormula 0 g.nodes.length (nodeOrderOf sample g strategy f).length ∧
       ys = (nodeSnaps g (nodeOrderOf sample g strategy f)).map
         (fun h => (lccNodeBranch h : ℚ) / (g.nodes.length : ℚ))) ∧
    ∀ (g : Graph) (f : ℚ) (ascending : Bool),
      (edge_overlap_removal g f ascending).1 =
        xFormula 0 g.edges.length (edgePlanOf g f ascending).length ∧
      (edge_overlap_removal g f ascending).2 =
        (edgeSnaps g (edgePlanOf g f ascending)).map
          (fun h => (lccEdgeBranch h : ℚ) / (g.nodes.length : ℚ)) := by
  constructor
  · intro sample g strategy f xs ys h
    unfold simulate_attack at h
    by_cases hs : strategy = "random" ∨ strategy = "targeted"
    · rw [if_pos hs] at h
      exact nodeLoop_eq_ok _ h
    · rw [if_neg hs] at h
      cases h
  · intro g f ascending
    rw [edge_overlap_removal, edgeLoop_eq]
    exact ⟨rfl, rfl⟩

/-- Witness for C2 amended at a concrete one-node run. -/
theorem claim2_witness :
    ([(1 : ℚ)] = xFormula 0 (⟨[0], []⟩ : Graph).nodes.length
        (nodeOrderOf (fun l n => l.take n) ⟨[0], []⟩ "targeted" 1).length) ∧
      ([(0 : ℚ)] = (nodeSnaps ⟨[0], []⟩
          (nodeOrderOf (fun l n => l.take n) ⟨[0], []⟩ "targeted" 1)).map
            (fun h => (lccNodeBranch h : ℚ) / ((⟨[0], []⟩ : Graph).nodes.length : ℚ))) := by
  refine claim2_amended.1 (fun l n => l.take n) ⟨[0], []⟩ "targeted" 1 [1] [0] ?_
  rw [simulate_attack, if_pos (Or.inr rfl),
      show nodeOrderOf (fun l n => l.take n) ⟨[0], []⟩ "targeted" 1 = [0] by
        rw [nodeOrderOf, if_neg (by decide), if_pos rfl, numRemoveNode_one]; decide,
      nodeLoop_of_nodeOk [0] 0 _ (by decide)]
  congr 1
  congr 1
  · show xFormula 0 1 1 = [1]
    simp [xFormula, List.range_succ]
  · show ((lccNodeBranch (removeNode ⟨[0], []⟩ 0) : ℚ) / 1) :: [] = [0]
    rw [show lccNodeBranch (removeNode ⟨[0], []⟩ 0) = 0 from by decide]
    norm_num

theorem removeNode_nodes_erase {g : Graph} (hn : g.nodes.Nodup) (u : ℕ) :
    (removeNode g u).nodes = g.nodes.erase u :=
  (List.Nodup.erase_eq_filter hn u).symm

theorem perm_removeNode {g : Graph} {u : ℕ} {rest : List ℕ} (hn : g.nodes.Nodup)
    (hp : (u :: rest).Perm g.nodes) : rest.Perm (removeNode g u).nodes := by
  rw [removeNode_nodes_erase hn]
  exact (List.cons_perm_iff_perm_erase.1 hp).2

theorem nodeOk_of_perm :
    ∀ (order : List ℕ) (g : Graph), g.nodes.Nodup → order.Perm g.nodes →
      nodeOk g order = true := by
  intro order
  induction order with
  | nil => intro g _ _; rfl
  | cons u rest ih =>
    intro g hn hp
    have hu : u ∈ g.nodes := hp.subset (List.mem_cons_self u rest)
    rw [nodeOk, Bool.and_eq_true, decide_eq_true_eq]
    exact ⟨hu, ih (removeNode g u) (removeNode_nodup hn u) (perm_removeNode hn hp)⟩

theorem nodeSnaps_last_empty :
    ∀ (order : List ℕ) (g : Graph), g.nodes.Nodup → order.Perm g.nodes → order ≠ [] →
      ∃ h, (nodeSnaps g order).getLast? = some h ∧ h.nodes = [] := by
  intro order
  induction order with
  | nil => intro g _ _ hne; exact absurd rfl hne
  | cons u rest ih =>
    intro g hn hp _
    have hn1 : (removeNode g u).nodes.Nodup := removeNode_nodup hn u
    have hp1 : rest.Perm (removeNode g u).nodes := perm_removeNode hn hp
    cases rest with
    | nil =>
      refine ⟨removeNode g u, rfl, ?_⟩
      exact (List.perm_nil.1 hp1.symm)
    | cons v rest2 =>
      obtain ⟨h, hlast, hempty⟩ := ih (removeNode g u) hn1 hp1 (List.cons_ne_nil v rest2)
      refine ⟨h, ?_, hempty⟩
      rw [nodeSnaps, nodeSnaps]
      rw [nodeSnaps] at hlast
      rw [List.getLast?_cons_cons]
      exact hlast

theorem targetedOrder_length (g : Graph) : (targetedOrder g).length = g.nodes.length := by
  rw [targetedOrder, List.length_insertionSort, degreePairs, List.length_map]

theorem targetedOrder_fst_perm (g : Graph) :
    ((targetedOrder g).map Prod.fst).Perm g.nodes := by
  have hfst : (degreePairs g).map Prod.fst = g.nodes := by
    rw [degreePairs, List.map_map]
    exact List.map_id'' (fun _ => rfl) g.nodes
  exact hfst ▸ (List.perm_insertionSort _ (degreePairs g)).map Prod.fst

theorem sortedEdges_length (g : Graph) (ascending : Bool) :
    (sortedEdges g ascending).length = g.edges.length := by
  rw [sortedEdges]
  cases ascending with
  | true =>
    rw [if_pos rfl, List.length_insertionSort, overlapScores, List.length_map]
  | false =>
    rw [if_neg (by simp), List.length_insertionSort, overlapScores, List.length_map]

theorem edgePlanOf_one_length (g : Graph) (ascending : Bool) :
    (edgePlanOf g 1 ascending).length = g.edges.length := by
  rw [edgePlanOf, one_mul, pyInt_natCast, Int.toNat_natCast, List.length_take,
      List.length_map, sortedEdges_length]
  exact min_self _

/-- C3. With `remove_fraction = 1` the final `fraction_remaining` of a
node-removal run is exactly `0` (for the random strategy, provided the
drawn sample is what `random.sample` guarantees: a permutation of the
node pool), while the final `fraction_remaining` of an edge-removal run
is at least `1/N0`: edge-only removal always leaves every node in
place. -/
theorem claim3_final_fraction :
    (∀ (sample : List ℕ → ℕ → List ℕ) (g : Graph),
       g.nodes.Nodup → g.nodes ≠ [] →
       ∃ xs ys, simulate_attack sample g "targeted" 1 = .ok (xs, ys) ∧
         ys.getLast? = some 0) ∧
    (∀ (sample : List ℕ → ℕ → List ℕ) (g : Graph),
       g.nodes.Nodup → g.nodes ≠ [] →
       (sample g.nodes g.nodes.length).Perm g.nodes →
       ∃ xs ys, simulate_attack sample g "random" 1 = .ok (xs, ys) ∧
         ys.getLast? = some 0) ∧
    ∀ (g : Graph) (ascending : Bool),
      g.nodes.Nodup → g.edges ≠ [] → (∀ e ∈ g.edges, e.1.1 ∈ g.nodes) →
      ∃ q, ((edge_overlap_removal g 1 ascending).2).getLast? = some q ∧
        1 / (g.nodes.length : ℚ) ≤ q := by
  have main : ∀ (order : List ℕ) (g : Graph), g.nodes.Nodup → order.Perm g.nodes →
      order ≠ [] →
      nodeLoop g.nodes.length g 0 order =
        .ok (xFormula 0 g.nodes.length order.length,
             (nodeSnaps g order).map
               (fun h => (lccNodeBranch h : ℚ) / (g.nodes.length : ℚ))) ∧
      ((nodeSnaps g order).map
          (fun h => (lccNodeBranch h : ℚ) / (g.nodes.length : ℚ))).getLast? = some 0 := by
    intro order g hn hp hne
    refine ⟨nodeLoop_of_nodeOk order 0 g.nodes.length (nodeOk_of_perm order g hn hp), ?_⟩
    obtain ⟨h, hlast, hempty⟩ := nodeSnaps_last_empty order g hn hp hne
    rw [List.getLast?_map, hlast]
    rw [Option.map_some']
    rw [lccNodeBranch, if_pos hempty]
    norm_num
  refine ⟨?_, ?_, ?_⟩
  · intro sample g hn hne
    have horder : nodeOrderOf sample g "targeted" 1 = (targetedOrder g).map Prod.fst := by
      rw [nodeOrderOf, if_neg (by decide), if_pos rfl, numRemoveNode_one,
          List.take_of_length_le (le_of_eq (targetedOrder_length g))]
    have hperm : ((targetedOrder g).map Prod.fst).Perm g.nodes := targetedOrder_fst_perm g
    have hone : (targetedOrder g).map Prod.fst ≠ [] := by
      intro hcon
      rw [hcon] at hperm
      exact hne (List.perm_nil.1 hperm.symm)
    obtain ⟨hrun, hlast⟩ := main _ g hn hperm hone
    refine ⟨xFormula 0 g.nodes.length ((targetedOrder g).map Prod.fst).length,
      (nodeSnaps g ((targetedOrder g).map Prod.fst)).map
        (fun h => (lccNodeBranch h : ℚ) / (g.nodes.length : ℚ)), ?_, hlast⟩
    rw [simulate_attack, if_pos (Or.inr rfl), horder, hrun]
  · intro sample g hn hne hperm
    have horder : nodeOrderOf sample g "random" 1 = sample g.nodes g.nodes.length := by
      rw [nodeOrderOf, if_pos rfl, numRemoveNode_one]
    have hone : sample g.nodes g.nodes.length ≠ [] := by
      intro hcon
      rw [hcon] at hperm
      exact hne (List.perm_nil.1 hperm.symm)
    obtain ⟨hrun, hlast⟩ := main _ g hn hperm hone
    refine ⟨xFormula 0 g.nodes.length (sample g.nodes g.nodes.length).length,
      (nodeSnaps g (sample g.nodes g.nodes.length)).map
        (fun h => (lccNodeBranch h : ℚ) / (g.nodes.length : ℚ)), ?_, hlast⟩
    rw [simulate_attack, if_pos (Or.inl rfl), horder, hrun]
  · intro g ascending hn hedge hwf
    have hnodes : g.nodes ≠ [] := by
      obtain ⟨e, he⟩ := List.exists_mem_of_ne_nil g.edges hedge
      exact List.ne_nil_of_mem (hwf e he)
    rw [edge_overlap_removal, edgeLoop_eq]
    set ys := (edgeSnaps g (edgePlanOf g 1 ascending)).map
      (fun h => (lccEdgeBranch h : ℚ) / (g.nodes.length : ℚ)) with hys
    have hbound : ∀ y ∈ ys, 1 / (g.nodes.length : ℚ) ≤ y := by
      intro y hy
      rw [hys] at hy
      rcases List.mem_map.1 hy with ⟨h, hmem, rfl⟩
      have hhn : h.nodes = g.nodes := edgeSnaps_nodes _ g h hmem
      have hnd : h.nodes.Nodup := by rw [hhn]; exact hn
      have hne2 : h.nodes ≠ [] := by rw [hhn]; exact hnodes
      rw [lccEdgeBranch_eq hnd]
      have h1 : 1 ≤ lcc h := lcc_pos hne2
      calc 1 / (g.nodes.length : ℚ) = ((1 : ℕ) : ℚ) / (g.nodes.length : ℚ) := by norm_num
        _ ≤ (lcc h : ℚ) / (g.nodes.length : ℚ) := divN_mono _ h1
    have hysne : ys ≠ [] := by
      rw [hys]
      intro hcon
      have hlen := congrArg List.length hcon
      rw [List.length_map, edgeSnaps_length, edgePlanOf_one_length] at hlen
      exact hedge (List.eq_nil_of_length_eq_zero hlen)
    obtain ⟨q, hq⟩ := List.getLast?_isSome.2 hysne |> Option.isSome_iff_exists.1
    refine ⟨q, hq, hbound q ?_⟩
    obtain ⟨hne3, rfl⟩ := List.mem_getLast?_eq_getLast (by rw [hq]; rfl)
    exact List.getLast_mem hne3

/-- Witness for C3 on the single-edge graph `0 — 1` under all three run
kinds. -/
theorem claim3_witness :
    (∃ xs ys, simulate_attack (fun l n => l.take n) ⟨[0, 1], [((0, 1), 1)]⟩
        "targeted" 1 = .ok (xs, ys) ∧ ys.getLast? = some 0) ∧
    (∃ xs ys, simulate_attack (fun l n => l.take n) ⟨[0, 1], [((0, 1), 1)]⟩
        "random" 1 = .ok (xs, ys) ∧ ys.getLast? = some 0) ∧
    ∃ q, ((edge_overlap_removal ⟨[0, 1], [((0, 1), 1)]⟩ 1 true).2).getLast? = some q ∧
      1 / (((⟨[0, 1], [((0, 1), 1)]⟩ : Graph).nodes.length : ℕ) : ℚ) ≤ q :=
  ⟨claim3_final_fraction.1 (fun l n => l.take n) ⟨[0, 1], [((0, 1), 1)]⟩
     (by decide) (by decide),
   claim3_final_fraction.2.1 (fun l n => l.take n) ⟨[0, 1], [((0, 1), 1)]⟩
     (by decide) (by decide) (List.Perm.refl [0, 1]),
   claim3_final_fraction.2.2 ⟨[0, 1], [((0, 1), 1)]⟩ true
     (by decide) (by decide) (by decide)⟩

end ProjU3
